import Mathlib

/-!
A verification development for `core/tx_list.go` of go-ethereum: the
per-account nonce-sorted transaction map (`txSortedMap`), the per-account
list with fee-bump replacement (`txList`), the global price-sorted heap
with lazy deletion (`txPricedList`), and the transaction journal
(`txJournal`).

Modelling conventions:
* Go `uint64` values (nonces, gas, price bumps) become `Nat`; the only
  arithmetic the source performs on them that can overflow is the
  `100 + int64(priceBump)` expression of `txList.Add`, whose
  two's-complement reinterpretation and wrapping addition are modelled
  exactly by `int64wrap`.
* `big.Int` gas prices and costs become `Nat` (they are non-negative in
  every transaction the pool handles); the replacement threshold, which
  can be negative when the bump multiplier wraps, is computed over `Int`,
  with Go's Euclidean `big.Int.Div` being `Int` division by the positive
  constant 100.
* Go's `container/heap` is modelled by its abstraction: a list kept
  sorted by the heap's `Less` relation.  `heap.Pop` takes the head,
  `heap.Push` inserts in order, `heap.Init` sorts, and `heap.Remove`
  located by the linear scan of `txSortedMap.Remove` erases the value.
* Go maps become association lists; the unspecified Go map iteration
  order becomes the list order.
* Go's `int` counter `stales` of `txPricedList` becomes `Int` (the source
  lets it go negative).
-/

/-- A pooled transaction, the read-only view `tx_list.go` consumes:
hash, nonce, gas price, gas limit, value and sender. -/
structure Transaction where
  hash : Nat
  nonce : Nat
  gasPrice : Nat
  gas : Nat
  value : Nat
  sender : Nat
deriving DecidableEq, Repr

/-- Modelled from the spec: `types.Transaction.Cost` lives outside the
source file; the spec defines `cost = gas · gasPrice + value`. -/
def Transaction.cost (tx : Transaction) : Nat :=
  tx.gas * tx.gasPrice + tx.value

/-- Lookup in a Go map modelled as an association list (`m.items[nonce]`). -/
def mapGet : List (Nat × Transaction) → Nat → Option Transaction
  | [], _ => none
  | (k, v) :: rest, n => if k = n then some v else mapGet rest n

/-- Deletion from a Go map modelled as an association list
(`delete(m.items, nonce)`); removes the first binding of the key. -/
def mapErase : List (Nat × Transaction) → Nat → List (Nat × Transaction)
  | [], _ => []
  | (k, v) :: rest, n => if k = n then rest else (k, v) :: mapErase rest n

/-- Insertion into a Go map modelled as an association list kept sorted by
key (`m.items[nonce] = tx`): overwrite an existing binding, otherwise
insert at the ordered position. -/
def mapInsert : List (Nat × Transaction) → Nat → Transaction → List (Nat × Transaction)
  | [], n, tx => [(n, tx)]
  | (k, v) :: rest, n, tx =>
    if n < k then (n, tx) :: (k, v) :: rest
    else if n = k then (n, tx) :: rest
    else (k, v) :: mapInsert rest n tx

/-- The nonce min-heap's `heap.Push`, on the sorted-list abstraction:
ordered insertion. -/
def heapPush : List Nat → Nat → List Nat
  | [], n => [n]
  | x :: xs, n => if n ≤ x then n :: x :: xs else x :: heapPush xs n

/-- Both `heap.Init` and `sort.Sort` on the nonce heap, on the sorted-list
abstraction: sort ascending (by repeated ordered insertion). -/
def sortNonces : List Nat → List Nat
  | [] => []
  | n :: rest => heapPush (sortNonces rest) n

/-- The `heap.Remove` at the position found by the linear scan of
`txSortedMap.Remove`, on the sorted-list abstraction: erase the first
occurrence of the nonce. -/
def heapEraseNonce : List Nat → Nat → List Nat
  | [], _ => []
  | x :: xs, n => if x = n then xs else x :: heapEraseNonce xs n

/-- The state of `txSortedMap`: the nonce → transaction map, the nonce
min-heap (as a sorted list) and the optional sorted cache. -/
structure TxSortedMap where
  items : List (Nat × Transaction)
  index : List Nat
  cache : Option (List Transaction)
deriving DecidableEq, Repr

/-- The `newTxSortedMap` constructor: empty map, empty heap, no cache. -/
def TxSortedMap.empty : TxSortedMap :=
  { items := [], index := [], cache := none }

/-- The structural invariant `txSortedMap` maintains: the association
list is strictly sorted by key (so keys are unique), the heap contents
are exactly the keys, and every transaction is stored under its own
nonce. -/
def TxSortedMap.WF (m : TxSortedMap) : Prop :=
  List.Pairwise (fun a b : Nat × Transaction => a.1 < b.1) m.items
  ∧ m.index = m.items.map Prod.fst
  ∧ ∀ kv ∈ m.items, kv.2.nonce = kv.1

/-- The `txSortedMap.Get` method. -/
def TxSortedMap.get (m : TxSortedMap) (nonce : Nat) : Option Transaction :=
  mapGet m.items nonce

/-- The `txSortedMap.Put` method: push the nonce onto the heap when it is
new, overwrite the binding, invalidate the cache. -/
def TxSortedMap.put (m : TxSortedMap) (tx : Transaction) : TxSortedMap :=
  let nonce := tx.nonce
  let index' := if mapGet m.items nonce = none then heapPush m.index nonce else m.index
  { items := mapInsert m.items nonce tx, index := index', cache := none }

/-- The pop loop of `txSortedMap.Forward`: while the heap minimum is below
the threshold, pop it, record `m.items[nonce]` and delete the binding. -/
def forwardLoop (threshold : Nat) :
    List Nat → List (Nat × Transaction) → List Transaction →
    List Nat × List (Nat × Transaction) × List Transaction
  | [], items, removed => ([], items, removed)
  | n :: rest, items, removed =>
    if n < threshold then
      forwardLoop threshold rest (mapErase items n) (removed ++ (mapGet items n).toList)
    else
      (n :: rest, items, removed)

/-- The `txSortedMap.Forward` method: drop everything below the threshold
and shift a present cache by the number of removed entries. -/
def TxSortedMap.forward (m : TxSortedMap) (threshold : Nat) :
    TxSortedMap × List Transaction :=
  let r := forwardLoop threshold m.index m.items []
  ({ items := r.2.1, index := r.1,
     cache := m.cache.map (fun c => c.drop r.2.2.length) }, r.2.2)

/-- The `txSortedMap.Filter` method: delete every binding whose value
satisfies the predicate; when anything was removed, rebuild the heap from
the remaining keys and clear the cache. -/
def TxSortedMap.filterTxs (m : TxSortedMap) (p : Transaction → Bool) :
    TxSortedMap × List Transaction :=
  let removed := (m.items.filter (fun kv => p kv.2)).map Prod.snd
  if removed.isEmpty then
    (m, removed)
  else
    let remaining := m.items.filter (fun kv => !(p kv.2))
    ({ items := remaining, index := sortNonces (remaining.map Prod.fst), cache := none },
     removed)

/-- The drop loop of `txSortedMap.Cap`: for each nonce taken from the top
of the sorted index (highest first), record the binding and delete it. -/
def capLoop : List Nat → List (Nat × Transaction) → List Transaction →
    List (Nat × Transaction) × List Transaction
  | [], items, drops => (items, drops)
  | n :: rest, items, drops =>
    capLoop rest (mapErase items n) (drops ++ (mapGet items n).toList)

/-- The `txSortedMap.Cap` method: when over the limit, sort the index,
drop the highest-nonce bindings down to the limit (highest first),
truncate and re-heapify the index, and truncate a present cache.  The
loop bound `len(m.items)` of the source equals the index length under
the structure's invariant. -/
def TxSortedMap.cap (m : TxSortedMap) (threshold : Nat) :
    TxSortedMap × List Transaction :=
  if m.items.length ≤ threshold then (m, [])
  else
    let sorted := sortNonces m.index
    let r := capLoop ((sorted.drop threshold).reverse) m.items []
    let index' := sortNonces (sorted.take threshold)
    let cache' := m.cache.map (fun c => c.take (c.length - r.2.length))
    ({ items := r.1, index := index', cache := cache' }, r.2)

/-- The `txSortedMap.Remove` method: short-circuit when the nonce is
absent; otherwise erase it from the heap (linear scan) and the map and
invalidate the cache. -/
def TxSortedMap.remove (m : TxSortedMap) (nonce : Nat) : TxSortedMap × Bool :=
  match mapGet m.items nonce with
  | none => (m, false)
  | some _ =>
    ({ items := mapErase m.items nonce,
       index := heapEraseNonce m.index nonce,
       cache := none }, true)

/-- The state of `txList`: strictness flag, the sorted map, and the
cached cost and gas caps. -/
structure TxList where
  strict : Bool
  txs : TxSortedMap
  costcap : Nat
  gascap : Nat
deriving DecidableEq, Repr

/-- The `newTxList` constructor. -/
def TxList.empty (strict : Bool) : TxList :=
  { strict := strict, txs := TxSortedMap.empty, costcap := 0, gascap := 0 }

/-- The acceptance tail of `txList.Add`: store the transaction and raise
the cost and gas caps when exceeded. -/
def TxList.insertAccepted (l : TxList) (tx : Transaction) : TxList :=
  let txs' := l.txs.put tx
  let costcap' := if l.costcap < tx.cost then tx.cost else l.costcap
  let gascap' := if l.gascap < tx.gas then tx.gas else l.gascap
  { l with txs := txs', costcap := costcap', gascap := gascap' }

/-- Reduction of an integer into the two's-complement `int64` range
`[-2^63, 2^63)`.  Applied to a `uint64` value it is Go's `int64(x)`
conversion; applied to a sum of in-range values it is Go's wrapping
`int64` addition. -/
def int64wrap (x : Int) : Int :=
  (x + 2 ^ 63) % 2 ^ 64 - 2 ^ 63

/-- The `txList.Add` method: against an incumbent at the same nonce,
compute `threshold = old.gasPrice · (100 + int64(priceBump)) / 100` — the
multiplier wraps in `int64` (and is negative for
`priceBump ≥ 2^63 - 100`), the product is exact `big.Int` arithmetic and
the division is Go's Euclidean `Div` by 100 — and reject unless the new
price strictly beats the old one and reaches the threshold; on acceptance
overwrite and return the incumbent. -/
def TxList.add (l : TxList) (tx : Transaction) (priceBump : Nat) :
    TxList × Bool × Option Transaction :=
  match l.txs.get tx.nonce with
  | some old =>
    let threshold :=
      ((old.gasPrice : Int) * int64wrap (100 + int64wrap (priceBump : Int))) / 100
    if old.gasPrice ≥ tx.gasPrice ∨ threshold > (tx.gasPrice : Int) then
      (l, false, none)
    else
      (l.insertAccepted tx, true, some old)
  | none => (l.insertAccepted tx, true, none)

/-- The `txList.Forward` method: delegate to the sorted map. -/
def TxList.forward (l : TxList) (threshold : Nat) : TxList × List Transaction :=
  let r := l.txs.forward threshold
  ({ l with txs := r.1 }, r.2)

/-- The `txList.Filter` method: short-circuit when both caps are within
the limits; otherwise lower the caps to the limits, drop every
transaction over either limit, and in strict mode additionally drop (as
invalidated) everything above the lowest removed nonce. -/
def TxList.filterLimits (l : TxList) (costLimit : Nat) (gasLimit : Nat) :
    TxList × List Transaction × List Transaction :=
  if l.costcap ≤ costLimit ∧ l.gascap ≤ gasLimit then
    (l, [], [])
  else
    let lcap := { l with costcap := costLimit, gascap := gasLimit }
    let fr := lcap.txs.filterTxs
      (fun tx => decide (costLimit < tx.cost) || decide (gasLimit < tx.gas))
    if l.strict && !fr.2.isEmpty then
      let lowest := fr.2.foldl
        (fun low tx => if low > tx.nonce then tx.nonce else low) (2 ^ 64 - 1)
      let fi := fr.1.filterTxs (fun tx => decide (lowest < tx.nonce))
      ({ lcap with txs := fi.1 }, fr.2, fi.2)
    else
      ({ lcap with txs := fr.1 }, fr.2, [])

/-- The `txList.Cap` method: delegate to the sorted map. -/
def TxList.capList (l : TxList) (threshold : Nat) : TxList × List Transaction :=
  let r := l.txs.cap threshold
  ({ l with txs := r.1 }, r.2)

/-- The `txList.Remove` method: remove the transaction's nonce from the
sorted map; in strict mode, additionally filter out (and return as
invalidated) every transaction with a larger nonce. -/
def TxList.removeTx (l : TxList) (tx : Transaction) : TxList × Bool × List Transaction :=
  let nonce := tx.nonce
  let r := l.txs.remove nonce
  if !r.2 then
    (l, false, [])
  else if l.strict then
    let fi := r.1.filterTxs (fun t => decide (nonce < t.nonce))
    ({ l with txs := fi.1 }, true, fi.2)
  else
    ({ l with txs := r.1 }, true, [])

/-- Modelled from the spec: `accountSet.containsTx` lives outside the
source file; the spec describes it as a predicate over a set of
privileged (locals) accounts, true when the transaction's sender is one
of them. -/
structure AccountSet where
  accounts : List Nat
deriving DecidableEq, Repr

/-- Membership test of the locals account set against a transaction's
sender. -/
def AccountSet.containsTx (s : AccountSet) (tx : Transaction) : Bool :=
  s.accounts.contains tx.sender

/-- The `priceHeap.Less` relation: cheaper gas price first; on a price
tie the higher nonce sorts first (it is worse). -/
def priceLess (a b : Transaction) : Bool :=
  if a.gasPrice < b.gasPrice then true
  else if b.gasPrice < a.gasPrice then false
  else decide (b.nonce < a.nonce)

/-- The price heap's `heap.Push`, on the sorted-list abstraction: ordered
insertion under `priceLess`. -/
def pricePush : List Transaction → Transaction → List Transaction
  | [], tx => [tx]
  | x :: xs, tx => if priceLess tx x then tx :: x :: xs else x :: pricePush xs tx

/-- The price heap's `heap.Init`, on the sorted-list abstraction: sort by
repeated ordered insertion. -/
def sortByPrice (l : List Transaction) : List Transaction :=
  l.foldr (fun tx acc => pricePush acc tx) []

/-- The state of `txPricedList`: the borrowed global hash → transaction
map, the price heap (as a sorted list) and the stale counter. -/
structure TxPricedList where
  all : List (Nat × Transaction)
  items : List Transaction
  stales : Int
deriving DecidableEq, Repr

/-- The `txPricedList.Put` method. -/
def TxPricedList.put (l : TxPricedList) (tx : Transaction) : TxPricedList :=
  { l with items := pricePush l.items tx }

/-- The `txPricedList.Removed` method: bump the stale counter; once it
exceeds a quarter of the heap it rebuilds the heap from the global map
and resets the counter to zero. -/
def TxPricedList.removedOp (l : TxPricedList) : TxPricedList :=
  let stales' := l.stales + 1
  if stales' ≤ (l.items.length : Int) / 4 then
    { l with stales := stales' }
  else
    { l with stales := 0, items := sortByPrice (l.all.map Prod.snd) }

/-- The pop loop of `txPricedList.Cap`: pop the cheapest; skip (and
uncount) stale entries; stop saving the first transaction at or above
the threshold; otherwise save locals and drop remotes.  Returns the
remaining heap, the stale counter, the drops and the saves. -/
def capScan (all : List (Nat × Transaction)) (threshold : Nat) (locals : AccountSet) :
    List Transaction → Int → List Transaction → List Transaction →
    List Transaction × Int × List Transaction × List Transaction
  | [], stales, drop, save => ([], stales, drop, save)
  | tx :: rest, stales, drop, save =>
    if mapGet all tx.hash = none then
      capScan all threshold locals rest (stales - 1) drop save
    else if threshold ≤ tx.gasPrice then
      (rest, stales, drop, save ++ [tx])
    else if locals.containsTx tx then
      capScan all threshold locals rest stales drop (save ++ [tx])
    else
      capScan all threshold locals rest stales (drop ++ [tx]) save

/-- The `txPricedList.Cap` method: run the pop loop, push every saved
transaction back onto the heap, and return the remote drops. -/
def TxPricedList.capOp (l : TxPricedList) (threshold : Nat) (locals : AccountSet) :
    TxPricedList × List Transaction :=
  let r := capScan l.all threshold locals l.items l.stales [] []
  ({ l with items := r.2.2.2.foldl pricePush r.1, stales := r.2.1 }, r.2.2.1)

/-- The pop loop of `txPricedList.Discard`: pop while transactions remain
and the remote count is positive; skip (and uncount) stale entries; save
locals; drop remotes, decrementing the count. -/
def discardScan (all : List (Nat × Transaction)) (locals : AccountSet) :
    List Transaction → Nat → Int → List Transaction → List Transaction →
    List Transaction × Int × List Transaction × List Transaction
  | items, 0, stales, drop, save => (items, stales, drop, save)
  | [], _ + 1, stales, drop, save => ([], stales, drop, save)
  | tx :: rest, count + 1, stales, drop, save =>
    if mapGet all tx.hash = none then
      discardScan all locals rest (count + 1) (stales - 1) drop save
    else if locals.containsTx tx then
      discardScan all locals rest (count + 1) stales drop (save ++ [tx])
    else
      discardScan all locals rest count stales (drop ++ [tx]) save

/-- The `txPricedList.Discard` method: run the pop loop, push every saved
transaction back onto the heap, and return the remote drops. -/
def TxPricedList.discard (l : TxPricedList) (count : Nat) (locals : AccountSet) :
    TxPricedList × List Transaction :=
  let r := discardScan l.all locals l.items count l.stales [] []
  ({ l with items := r.2.2.2.foldl pricePush r.1, stales := r.2.1 }, r.2.2.1)

/-- The `txJournal.rotate` file contents, with the filesystem and the RLP
encoding modelled away (the rlp package lives outside the source file):
the fresh journal file holds every transaction of every account, in the
iteration order of the map. -/
def rotateFile (all : List (Nat × List Transaction)) : List Transaction :=
  all.foldl (fun acc entry => acc ++ entry.2) []

/-- The decode loop of `txJournal.load`: decode transactions one at a
time, accumulate a batch, hand the batch to the add callback once it
exceeds 1024 entries, and flush the final partial batch at end of
stream. -/
def loadLoop : List Transaction → List Transaction → List (List Transaction) →
    List (List Transaction)
  | [], batch, delivered =>
    if batch.length > 0 then delivered ++ [batch] else delivered
  | tx :: rest, batch, delivered =>
    let batch' := batch ++ [tx]
    if batch'.length > 1024 then loadLoop rest [] (delivered ++ [batch'])
    else loadLoop rest batch' delivered

/-- The batches `txJournal.load` delivers to the add callback when
replaying a journal file. -/
def loadBatches (contents : List Transaction) : List (List Transaction) :=
  loadLoop contents [] []

instance (m : TxSortedMap) : Decidable m.WF := by
  unfold TxSortedMap.WF
  infer_instance

def txBase100 : Transaction := ⟨10, 5, 100, 21000, 0, 9⟩

def txRep109 : Transaction := ⟨11, 5, 109, 21000, 0, 9⟩

def txRep110 : Transaction := ⟨12, 5, 110, 21000, 0, 9⟩

def txRep101 : Transaction := ⟨13, 5, 101, 21000, 0, 9⟩

def listS1 : TxList :=
  { strict := true
    txs := { items := [(5, txBase100)], index := [5], cache := none }
    costcap := txBase100.cost, gascap := txBase100.gas }

def txOld101 : Transaction := ⟨20, 5, 101, 21000, 0, 9⟩

def txNew111 : Transaction := ⟨21, 5, 111, 21000, 0, 9⟩

def listC2 : TxList :=
  { strict := true
    txs := { items := [(5, txOld101)], index := [5], cache := none }
    costcap := txOld101.cost, gascap := txOld101.gas }

def txA : Transaction := ⟨31, 1, 10, 100, 0, 7⟩

def txB : Transaction := ⟨32, 2, 20, 100, 0, 7⟩

def mapWithCache : TxSortedMap :=
  { items := [(1, txA), (2, txB)], index := [1, 2], cache := some [txA, txB] }

def txPr10 : Transaction := ⟨41, 1, 10, 0, 0, 100⟩

def txPr20 : Transaction := ⟨42, 1, 20, 0, 0, 101⟩

def txPr30 : Transaction := ⟨43, 1, 30, 0, 0, 102⟩

def txPr50 : Transaction := ⟨44, 1, 50, 0, 0, 103⟩

def txStale100 : Transaction := ⟨45, 1, 100, 0, 0, 104⟩

def noLocals : AccountSet := ⟨[]⟩

def pricedC6 : TxPricedList :=
  { all := [(41, txPr10), (42, txPr20), (43, txPr30), (44, txPr50)]
    items := [txPr10, txPr20, txPr30, txPr50, txStale100]
    stales := 1 }

def txN1 : Transaction := ⟨51, 1, 10, 100, 0, 7⟩

def txN2 : Transaction := ⟨52, 2, 20, 100, 0, 7⟩

def txN3 : Transaction := ⟨53, 3, 30, 100, 0, 7⟩

def txN4 : Transaction := ⟨54, 4, 40, 100, 0, 7⟩

def mapC3 : TxSortedMap :=
  { items := [(1, txN1), (2, txN2), (3, txN3), (4, txN4)]
    index := [1, 2, 3, 4], cache := none }

def txK1 : Transaction := ⟨61, 1, 10, 100, 0, 7⟩

def txK2 : Transaction := ⟨62, 2, 20, 100, 0, 7⟩

def txK3 : Transaction := ⟨63, 3, 30, 100, 0, 7⟩

def txK4 : Transaction := ⟨64, 4, 40, 100, 0, 7⟩

def listC4 : TxList :=
  { strict := true
    txs := { items := [(1, txK1), (2, txK2), (3, txK3), (4, txK4)]
             index := [1, 2, 3, 4], cache := none }
    costcap := 4000, gascap := 100 }

def mapC8w : TxSortedMap :=
  { items := [(1, txK1), (2, txK2), (3, txK3), (4, txK4)]
    index := [1, 2, 3, 4], cache := none }

def txLocal5 : Transaction := ⟨71, 1, 5, 0, 0, 55⟩

def localSet55 : AccountSet := ⟨[55]⟩

def pricedStaleLocal : TxPricedList :=
  { all := [], items := [txLocal5], stales := 0 }

def txRemote3 : Transaction := ⟨72, 1, 3, 0, 0, 66⟩

def pricedMixed : TxPricedList :=
  { all := [(72, txRemote3), (71, txLocal5)]
    items := [txRemote3, txLocal5], stales := 0 }

lemma int64wrap_of_range (x : Int) (h1 : -(2 ^ 63) ≤ x) (h2 : x < 2 ^ 63) :
    int64wrap x = x := by
  unfold int64wrap
  omega

lemma add_existing (l : TxList) (tx old : Transaction) (bump : Nat)
    (hbump : bump < 2 ^ 63 - 100)
    (h : l.txs.get tx.nonce = some old) :
    l.add tx bump =
      if old.gasPrice < tx.gasPrice ∧ old.gasPrice * (100 + bump) / 100 ≤ tx.gasPrice
      then (l.insertAccepted tx, true, some old)
      else (l, false, none) := by
  simp only [TxList.add, h]
  have hbi : (bump : Int) < 2 ^ 63 - 100 := by
    have h63 : ((2 ^ 63 - 100 : Nat) : Int) = 2 ^ 63 - 100 := by norm_num
    omega
  have hw1 : int64wrap (bump : Int) = (bump : Int) :=
    int64wrap_of_range _ (by omega) (by omega)
  have hw2 : int64wrap (100 + (bump : Int)) = 100 + (bump : Int) :=
    int64wrap_of_range _ (by omega) (by omega)
  rw [hw1, hw2]
  have hprod : (old.gasPrice : Int) * (100 + (bump : Int)) =
      ((old.gasPrice * (100 + bump) : Nat) : Int) := by
    push_cast
    ring
  rw [hprod]
  have hdiv : ((old.gasPrice * (100 + bump) : Nat) : Int) / 100 =
      ((old.gasPrice * (100 + bump) / 100 : Nat) : Int) := by
    omega
  rw [hdiv]
  by_cases hc : old.gasPrice < tx.gasPrice ∧ old.gasPrice * (100 + bump) / 100 ≤ tx.gasPrice
  · rw [if_neg (by omega), if_pos hc]
  · rw [if_pos (by omega), if_neg hc]

lemma filterLimits_caps (l : TxList) (c g : Nat) :
    (l.filterLimits c g).1.costcap ≤ c ∧ (l.filterLimits c g).1.gascap ≤ g := by
  unfold TxList.filterLimits
  by_cases h : l.costcap ≤ c ∧ l.gascap ≤ g
  · rw [if_pos h]; exact h
  · rw [if_neg h]
    dsimp only
    split
    · exact ⟨le_refl c, le_refl g⟩
    · exact ⟨le_refl c, le_refl g⟩

lemma filterLimits_short (l : TxList) (c g : Nat)
    (hc : l.costcap ≤ c) (hg : l.gascap ≤ g) :
    l.filterLimits c g = (l, [], []) := by
  unfold TxList.filterLimits
  rw [if_pos ⟨hc, hg⟩]

lemma loadLoop_flatten (contents : List Transaction) :
    ∀ (batch : List Transaction) (delivered : List (List Transaction)),
    (loadLoop contents batch delivered).flatten = delivered.flatten ++ batch ++ contents := by
  induction contents with
  | nil =>
    intro batch delivered
    by_cases h : batch.length > 0
    · simp [loadLoop, h]
    · simp only [loadLoop, if_neg h]
      have : batch = [] := List.length_eq_zero.mp (by omega)
      simp [this]
  | cons tx rest ih =>
    intro batch delivered
    by_cases h : (batch ++ [tx]).length > 1024
    · simp only [loadLoop, if_pos h]
      rw [ih]
      simp
    · simp only [loadLoop, if_neg h]
      rw [ih]
      simp

lemma rotateFile_flatten (all : List (Nat × List Transaction)) :
    rotateFile all = (all.map Prod.snd).flatten := by
  suffices h : ∀ init : List Transaction,
      all.foldl (fun acc entry => acc ++ entry.2) init = init ++ (all.map Prod.snd).flatten by
    simpa using h []
  induction all with
  | nil => intro init; simp
  | cons e rest ih => intro init; simp [ih, List.append_assoc]

lemma forwardLoop_spec (t : Nat) :
    ∀ (items : List (Nat × Transaction)) (acc : List Transaction),
    List.Pairwise (fun a b : Nat × Transaction => a.1 < b.1) items →
    forwardLoop t (items.map Prod.fst) items acc =
      ((items.filter (fun kv => decide (t ≤ kv.1))).map Prod.fst,
       items.filter (fun kv => decide (t ≤ kv.1)),
       acc ++ (items.filter (fun kv => decide (kv.1 < t))).map Prod.snd) := by
  intro items
  induction items with
  | nil => intro acc _; simp [forwardLoop]
  | cons kv rest ih =>
    intro acc hp
    obtain ⟨k, v⟩ := kv
    by_cases hk : k < t
    · have h1 : mapGet ((k, v) :: rest) k = some v := by simp [mapGet]
      have h2 : mapErase ((k, v) :: rest) k = rest := by simp [mapErase]
      simp only [List.map_cons, forwardLoop, if_pos hk, h1, h2, Option.toList_some]
      rw [ih (acc ++ [v]) (List.Pairwise.of_cons hp)]
      have hk1 : decide (t ≤ k) = false := by simp; omega
      have hk2 : decide (k < t) = true := by simpa using hk
      simp [List.filter_cons, hk1, hk2]
    · have hge : ∀ x ∈ rest, t ≤ x.1 := by
        intro x hx
        have := (List.pairwise_cons.mp hp).1 x hx
        omega
      have hk1 : decide (t ≤ k) = true := by simp; omega
      have hk2 : decide (k < t) = false := by simpa using hk
      have hfa : rest.filter (fun kv => decide (t ≤ kv.1)) = rest :=
        List.filter_eq_self.mpr (fun x hx => by simpa using hge x hx)
      have hfb : rest.filter (fun kv => decide (kv.1 < t)) = [] :=
        List.filter_eq_nil_iff.mpr (fun x hx => by simpa using Nat.not_lt.mpr (hge x hx))
      simp only [List.map_cons, forwardLoop, if_neg hk]
      simp [List.filter_cons, hk1, hk2, hfa, hfb]

lemma filterTxs_spec (m : TxSortedMap) (p : Transaction → Bool) :
    (m.filterTxs p).2 = (m.items.filter (fun kv => p kv.2)).map Prod.snd
    ∧ (m.filterTxs p).1.items = m.items.filter (fun kv => !(p kv.2)) := by
  unfold TxSortedMap.filterTxs
  by_cases h : ((m.items.filter (fun kv => p kv.2)).map Prod.snd).isEmpty
  · rw [if_pos h]
    refine ⟨rfl, ?_⟩
    have hnil : m.items.filter (fun kv => p kv.2) = [] := by
      have := List.isEmpty_iff.mp h
      exact List.map_eq_nil_iff.mp this
    have hall : ∀ kv ∈ m.items, (!(p kv.2)) = true := by
      intro kv hkv
      cases e : p kv.2
      · simp
      · exfalso
        have hmem : kv ∈ m.items.filter (fun kv => p kv.2) :=
          List.mem_filter.mpr ⟨hkv, e⟩
        rw [hnil] at hmem
        exact absurd hmem (List.not_mem_nil kv)
    exact (List.filter_eq_self.mpr hall).symm
  · rw [if_neg h]
    exact ⟨rfl, rfl⟩

lemma mapErase_eq_filter (n : Nat) :
    ∀ items : List (Nat × Transaction),
    List.Pairwise (fun a b : Nat × Transaction => a.1 < b.1) items →
    mapErase items n = items.filter (fun kv => !decide (kv.1 = n)) := by
  intro items
  induction items with
  | nil => intro _; rfl
  | cons kv rest ih =>
    intro hp
    obtain ⟨k, v⟩ := kv
    by_cases hk : k = n
    · subst hk
      have hrest : rest.filter (fun kv => !decide (kv.1 = k)) = rest :=
        List.filter_eq_self.mpr (fun x hx => by
          have := (List.pairwise_cons.mp hp).1 x hx
          simp; omega)
      simp [mapErase, List.filter_cons, hrest]
    · simp [mapErase, hk, List.filter_cons, ih (List.Pairwise.of_cons hp)]

lemma filter_filter_tx (l : List (Nat × Transaction)) (p q : Nat × Transaction → Bool) :
    (l.filter p).filter q = l.filter (fun kv => p kv && q kv) := by
  induction l with
  | nil => rfl
  | cons kv rest ih =>
    by_cases hp : p kv
    · by_cases hq : q kv
      · simp [List.filter_cons, hp, hq, ih]
      · simp [List.filter_cons, hp, hq, ih]
    · simp [List.filter_cons, hp, ih]

lemma heapPush_cons_of_le (n x : Nat) (xs : List Nat) (h : n ≤ x) :
    heapPush (x :: xs) n = n :: x :: xs := by
  simp [heapPush, h]

lemma sortNonces_sorted_id :
    ∀ l : List Nat, List.Pairwise (· ≤ ·) l → sortNonces l = l := by
  intro l
  induction l with
  | nil => intro _; rfl
  | cons x xs ih =>
    intro hp
    rw [sortNonces, ih (List.Pairwise.of_cons hp)]
    cases xs with
    | nil => rfl
    | cons y ys =>
      exact heapPush_cons_of_le x y ys ((List.pairwise_cons.mp hp).1 y (by simp))

lemma mapGet_append_right (n : Nat) :
    ∀ (l1 l2 : List (Nat × Transaction)), n ∉ l1.map Prod.fst →
    mapGet (l1 ++ l2) n = mapGet l2 n := by
  intro l1
  induction l1 with
  | nil => intro l2 _; rfl
  | cons kv rest ih =>
    intro l2 hn
    obtain ⟨k, v⟩ := kv
    have hk : ¬ (k = n) := fun he => hn (by subst he; simp)
    have hn2 : n ∉ rest.map Prod.fst := fun hm => hn (by simp [hm])
    simp only [List.cons_append, mapGet, if_neg hk]
    exact ih l2 hn2

lemma mapErase_append_right (n : Nat) :
    ∀ (l1 l2 : List (Nat × Transaction)), n ∉ l1.map Prod.fst →
    mapErase (l1 ++ l2) n = l1 ++ mapErase l2 n := by
  intro l1
  induction l1 with
  | nil => intro l2 _; rfl
  | cons kv rest ih =>
    intro l2 hn
    obtain ⟨k, v⟩ := kv
    have hk : ¬ (k = n) := fun he => hn (by subst he; simp)
    have hn2 : n ∉ rest.map Prod.fst := fun hm => hn (by simp [hm])
    simp only [List.cons_append, mapErase, if_neg hk, List.append_eq]
    rw [ih l2 hn2]

lemma capLoop_spec :
    ∀ (post pre : List (Nat × Transaction)) (acc : List Transaction),
    List.Pairwise (fun a b : Nat × Transaction => a.1 < b.1) (pre ++ post) →
    capLoop ((post.map Prod.fst).reverse) (pre ++ post) acc =
      (pre, acc ++ post.reverse.map Prod.snd) := by
  intro post
  induction post using List.reverseRecOn with
  | nil => intro pre acc _; simp [capLoop]
  | append_singleton post' kv ih =>
    intro pre acc hp
    obtain ⟨k, v⟩ := kv
    have hassoc : pre ++ (post' ++ [(k, v)]) = (pre ++ post') ++ [(k, v)] := by
      simp [List.append_assoc]
    rw [hassoc] at hp
    have hk : k ∉ (pre ++ post').map Prod.fst := by
      intro hmem
      obtain ⟨kv', hkv', hfst⟩ := List.mem_map.mp hmem
      have := (List.pairwise_append.mp hp).2.2 kv' hkv' (k, v) (by simp)
      omega
    have hrev : ((post' ++ [(k, v)]).map Prod.fst).reverse =
        k :: (post'.map Prod.fst).reverse := by simp
    rw [hrev, hassoc, capLoop]
    rw [mapGet_append_right k (pre ++ post') [(k, v)] hk]
    rw [mapErase_append_right k (pre ++ post') [(k, v)] hk]
    have hget : mapGet [(k, v)] k = some v := by simp [mapGet]
    have herase : mapErase [(k, v)] k = [] := by simp [mapErase]
    rw [hget, herase, List.append_nil, Option.toList_some]
    rw [ih pre (acc ++ [v]) (hp.sublist (List.sublist_append_left _ _))]
    simp

lemma pricePush_mem (x a : Transaction) :
    ∀ l : List Transaction, a ∈ pricePush l x ↔ a = x ∨ a ∈ l := by
  intro l
  induction l with
  | nil => simp [pricePush]
  | cons y ys ih =>
    by_cases h : priceLess x y
    · simp [pricePush, h]
    · simp [pricePush, h, ih]
      tauto

lemma foldl_pricePush_mem (a : Transaction) :
    ∀ (save l : List Transaction), a ∈ save.foldl pricePush l ↔ a ∈ l ∨ a ∈ save := by
  intro save
  induction save with
  | nil => simp
  | cons s ss ih =>
    intro l
    rw [List.foldl_cons, ih, pricePush_mem]
    constructor
    · rintro ((h | h) | h) <;> simp [h]
    · rintro (h | h)
      · tauto
      · rcases List.mem_cons.mp h with h | h <;> tauto

lemma discardScan_drop_not_locals (all : List (Nat × Transaction)) (locals : AccountSet) :
    ∀ (items : List Transaction) (count : Nat) (stales : Int)
      (drop save : List Transaction),
    (∀ tx ∈ drop, locals.containsTx tx = false) →
    ∀ tx ∈ (discardScan all locals items count stales drop save).2.2.1,
      locals.containsTx tx = false := by
  intro items
  induction items with
  | nil =>
    intro count stales drop save hd
    cases count <;> simpa [discardScan] using hd
  | cons t rest ih =>
    intro count stales drop save hd
    cases count with
    | zero => simpa [discardScan] using hd
    | succ c =>
      by_cases h1 : mapGet all t.hash = none
      · rw [discardScan, if_pos h1]
        exact ih (c + 1) (stales - 1) drop save hd
      · by_cases h2 : locals.containsTx t
        · rw [discardScan, if_neg h1, if_pos h2]
          exact ih (c + 1) stales drop (save ++ [t]) hd
        · rw [discardScan, if_neg h1, if_neg h2]
          refine ih c stales (drop ++ [t]) save ?_
          intro tx htx
          rcases List.mem_append.mp htx with h | h
          · exact hd tx h
          · rw [List.mem_singleton.mp h]
            exact Bool.not_eq_true _ ▸ (by simpa using h2)

lemma discardScan_keeps_locals (all : List (Nat × Transaction)) (locals : AccountSet) :
    ∀ (items : List Transaction) (count : Nat) (stales : Int)
      (drop save : List Transaction) (tx : Transaction),
    (tx ∈ items ∨ tx ∈ save) →
    locals.containsTx tx = true → mapGet all tx.hash ≠ none →
    tx ∈ (discardScan all locals items count stales drop save).1
    ∨ tx ∈ (discardScan all locals items count stales drop save).2.2.2 := by
  intro items
  induction items with
  | nil =>
    intro count stales drop save tx hmem _ _
    cases count <;> simp only [discardScan] <;> tauto
  | cons t rest ih =>
    intro count stales drop save tx hmem hl hs
    cases count with
    | zero =>
      simp only [discardScan]
      rcases hmem with h | h
      · exact Or.inl h
      · exact Or.inr h
    | succ c =>
      by_cases h1 : mapGet all t.hash = none
      · rw [discardScan, if_pos h1]
        refine ih (c + 1) (stales - 1) drop save tx ?_ hl hs
        rcases hmem with h | h
        · rcases List.mem_cons.mp h with h | h
          · exact absurd (h ▸ h1) hs
          · exact Or.inl h
        · exact Or.inr h
      · by_cases h2 : locals.containsTx t
        · rw [discardScan, if_neg h1, if_pos h2]
          refine ih (c + 1) stales drop (save ++ [t]) tx ?_ hl hs
          rcases hmem with h | h
          · rcases List.mem_cons.mp h with h | h
            · exact Or.inr (by simp [h])
            · exact Or.inl h
          · exact Or.inr (by simp [h])
        · rw [discardScan, if_neg h1, if_neg h2]
          refine ih c stales (drop ++ [t]) save tx ?_ hl hs
          rcases hmem with h | h
          · rcases List.mem_cons.mp h with h | h
            · exact absurd (h ▸ hl) (by simpa using h2)
            · exact Or.inl h
          · exact Or.inr h

lemma capScan_drop_not_locals (all : List (Nat × Transaction)) (threshold : Nat)
    (locals : AccountSet) :
    ∀ (items : List Transaction) (stales : Int) (drop save : List Transaction),
    (∀ tx ∈ drop, locals.containsTx tx = false) →
    ∀ tx ∈ (capScan all threshold locals items stales drop save).2.2.1,
      locals.containsTx tx = false := by
  intro items
  induction items with
  | nil => intro stales drop save hd; simpa [capScan] using hd
  | cons t rest ih =>
    intro stales drop save hd
    by_cases h1 : mapGet all t.hash = none
    · rw [capScan, if_pos h1]
      exact ih (stales - 1) drop save hd
    · by_cases h2 : threshold ≤ t.gasPrice
      · rw [capScan, if_neg h1, if_pos h2]
        simpa using hd
      · by_cases h3 : locals.containsTx t
        · rw [capScan, if_neg h1, if_neg h2, if_pos h3]
          exact ih stales drop (save ++ [t]) hd
        · rw [capScan, if_neg h1, if_neg h2, if_neg h3]
          refine ih stales (drop ++ [t]) save ?_
          intro tx htx
          rcases List.mem_append.mp htx with h | h
          · exact hd tx h
          · rw [List.mem_singleton.mp h]
            simpa using h3

lemma capScan_keeps_locals (all : List (Nat × Transaction)) (threshold : Nat)
    (locals : AccountSet) :
    ∀ (items : List Transaction) (stales : Int) (drop save : List Transaction)
      (tx : Transaction),
    (tx ∈ items ∨ tx ∈ save) →
    locals.containsTx tx = true → mapGet all tx.hash ≠ none →
    tx ∈ (capScan all threshold locals items stales drop save).1
    ∨ tx ∈ (capScan all threshold locals items stales drop save).2.2.2 := by
  intro items
  induction items with
  | nil =>
    intro stales drop save tx hmem _ _
    simp only [capScan]
    tauto
  | cons t rest ih =>
    intro stales drop save tx hmem hl hs
    by_cases h1 : mapGet all t.hash = none
    · rw [capScan, if_pos h1]
      refine ih (stales - 1) drop save tx ?_ hl hs
      rcases hmem with h | h
      · rcases List.mem_cons.mp h with h | h
        · exact absurd (h ▸ h1) hs
        · exact Or.inl h
      · exact Or.inr h
    · by_cases h2 : threshold ≤ t.gasPrice
      · rw [capScan, if_neg h1, if_pos h2]
        rcases hmem with h | h
        · rcases List.mem_cons.mp h with h | h
          · exact Or.inr (by simp [h])
          · exact Or.inl h
        · exact Or.inr (by simp [h])
      · by_cases h3 : locals.containsTx t
        · rw [capScan, if_neg h1, if_neg h2, if_pos h3]
          refine ih stales drop (save ++ [t]) tx ?_ hl hs
          rcases hmem with h | h
          · rcases List.mem_cons.mp h with h | h
            · exact Or.inr (by simp [h])
            · exact Or.inl h
          · exact Or.inr (by simp [h])
        · rw [capScan, if_neg h1, if_neg h2, if_neg h3]
          refine ih stales (drop ++ [t]) save tx ?_ hl hs
          rcases hmem with h | h
          · rcases List.mem_cons.mp h with h | h
            · exact absurd (h ▸ hl) (by simpa using h3)
            · exact Or.inl h
          · exact Or.inr h

/-- The counterexample to C1: at `priceBump = 2^63` the source's
`100 + int64(priceBump)` is the negative value `100 - 2^63`, the
threshold is negative and the code accepts any strictly higher gas price
(here 101 over 100), while the claim's unbounded formula
`floor(old.gasPrice * (100 + bump) / 100)` demands an astronomically
higher price and rejects — the stated equivalence fails. -/
theorem C1_cex :
    ¬ (((listS1.add txRep101 (2 ^ 63)).2.1 = true) ↔
       (txBase100.gasPrice < txRep101.gasPrice ∧
        txBase100.gasPrice * (100 + 2 ^ 63) / 100 ≤ txRep101.gasPrice)) := by
  decide

/-- The claim C1 as amended: for every `priceBump` below `2^63 - 100`
(so that the source's `100 + int64(priceBump)` does not wrap negative),
with an incumbent transaction at the same nonce, `add` accepts exactly
when the new gas price strictly exceeds the old one and reaches the
truncating-division threshold `old.gasPrice * (100 + bump) / 100`;
acceptance returns the incumbent, rejection returns nothing and leaves
the list unchanged. -/
theorem C1_amended_add_replacement (l : TxList) (tx old : Transaction) (bump : Nat)
    (hbump : bump < 2 ^ 63 - 100)
    (h : l.txs.get tx.nonce = some old) :
    ((l.add tx bump).2.1 = true ↔
      old.gasPrice < tx.gasPrice ∧ old.gasPrice * (100 + bump) / 100 ≤ tx.gasPrice)
    ∧ ((l.add tx bump).2.1 = true → (l.add tx bump).2.2 = some old)
    ∧ ((l.add tx bump).2.1 = false →
        (l.add tx bump).2.2 = none ∧ (l.add tx bump).1 = l) := by
  rw [add_existing l tx old bump hbump h]
  by_cases hc : old.gasPrice < tx.gasPrice ∧ old.gasPrice * (100 + bump) / 100 ≤ tx.gasPrice
  · rw [if_pos hc]; simpa using hc
  · rw [if_neg hc]; simpa using hc

theorem C1_amended_add_replacement_witness :
    (10 < 2 ^ 63 - 100 ∧ listS1.txs.get txRep110.nonce = some txBase100)
    ∧ (((listS1.add txRep110 10).2.1 = true ↔
        txBase100.gasPrice < txRep110.gasPrice ∧
        txBase100.gasPrice * (100 + 10) / 100 ≤ txRep110.gasPrice)
       ∧ ((listS1.add txRep110 10).2.1 = true →
          (listS1.add txRep110 10).2.2 = some txBase100)
       ∧ ((listS1.add txRep110 10).2.1 = false →
          (listS1.add txRep110 10).2.2 = none ∧ (listS1.add txRep110 10).1 = listS1))
    ∧ (listS1.add txRep109 10).2.1 = false
    ∧ (listS1.add txRep110 10).2.1 = true :=
  ⟨⟨by decide, by decide⟩,
   C1_amended_add_replacement listS1 txRep110 txBase100 10 (by decide) (by decide),
   by decide, by decide⟩

/-- The counterexample to C2: with the incumbent at gas price 101 and
bump 10, the source accepts a replacement at gas price 111 (the truncated
threshold is 111), but the claim's exact-arithmetic condition
`111 · 100 ≥ 101 · 110` is false, so the stated equivalence fails. -/
theorem C2_cex :
    ¬ (((listC2.add txNew111 10).2.1 = true) ↔
       (txOld101.gasPrice < txNew111.gasPrice ∧
        txOld101.gasPrice * (100 + 10) ≤ txNew111.gasPrice * 100)) := by
  decide

/-- The claim C2 as amended: for every `priceBump` below `2^63 - 100`
(beyond which the source's `100 + int64(priceBump)` wraps negative and
any strictly higher price is accepted), the acceptance condition uses the
truncating integer division of the source,
`tx.gasPrice ≥ old.gasPrice * (100 + bump) / 100`, not the exact product
comparison. -/
theorem C2_amended_add (l : TxList) (tx old : Transaction) (bump : Nat)
    (hbump : bump < 2 ^ 63 - 100)
    (h : l.txs.get tx.nonce = some old) :
    (l.add tx bump).2.1 = true ↔
      old.gasPrice < tx.gasPrice ∧ old.gasPrice * (100 + bump) / 100 ≤ tx.gasPrice := by
  rw [add_existing l tx old bump hbump h]
  by_cases hc : old.gasPrice < tx.gasPrice ∧ old.gasPrice * (100 + bump) / 100 ≤ tx.gasPrice
  · rw [if_pos hc]; simpa using hc
  · rw [if_neg hc]; simpa using hc

theorem C2_amended_add_witness :
    (10 < 2 ^ 63 - 100 ∧ listC2.txs.get txNew111.nonce = some txOld101)
    ∧ ((listC2.add txNew111 10).2.1 = true ↔
        txOld101.gasPrice < txNew111.gasPrice ∧
        txOld101.gasPrice * (100 + 10) / 100 ≤ txNew111.gasPrice) :=
  ⟨⟨by decide, by decide⟩, C2_amended_add listC2 txNew111 txOld101 10 (by decide) (by decide)⟩

/-- The claim C10: removing an absent nonce returns false and leaves the
whole `txSortedMap` state (items, heap index and cache, a present cache
included) untouched. -/
theorem C10_remove_missing (m : TxSortedMap) (nonce : Nat)
    (h : mapGet m.items nonce = none) :
    m.remove nonce = (m, false) := by
  simp only [TxSortedMap.remove, h]

theorem C10_remove_missing_witness :
    mapGet mapWithCache.items 7 = none
    ∧ mapWithCache.remove 7 = (mapWithCache, false) :=
  ⟨by decide, C10_remove_missing mapWithCache 7 (by decide)⟩

/-- The counterexample to C6: a `Cap` call on a heap of five entries with
one stale entry (a state satisfying `stales ≤ |items|/4` beforehand) drops
three cheap remote transactions and stops at the price floor, ending with
`stales = 1 > |items|/4 = 0`; `Cap` never rebuilds the heap and did not
reset the counter. -/
theorem C6_cex :
    ¬ ((pricedC6.capOp 50 noLocals).1.stales ≤
         ((pricedC6.capOp 50 noLocals).1.items.length : Int) / 4
       ∨ (pricedC6.capOp 50 noLocals).1.stales = 0) := by
  decide

/-- The claim C6 as amended: the stale bound is guaranteed by `Removed`
(the only operation that rebuilds): after `Removed` either
`stales ≤ |items|/4` holds or the heap was rebuilt from the global map
with the counter reset to 0.  `Cap`, `Underpriced` and `Discard` only
decrement the counter for entries they skip and can leave it above a
quarter of the shrunken heap. -/
theorem C6_amended_removed_bound (l : TxPricedList) :
    (l.removedOp.stales ≤ (l.removedOp.items.length : Int) / 4)
    ∨ (l.removedOp.stales = 0
       ∧ l.removedOp.items = sortByPrice (l.all.map Prod.snd)) := by
  unfold TxPricedList.removedOp
  by_cases h : l.stales + 1 ≤ (l.items.length : Int) / 4
  · left; rw [if_pos h]; exact h
  · right; rw [if_neg h]; exact ⟨rfl, rfl⟩

/-- The claim C7: a second `Filter` call with the same cost and gas limits
immediately after a first one removes nothing, because the first call
lowers `costcap` and `gascap` to the limits and the second call
short-circuits. -/
theorem C7_filter_idempotent (l : TxList) (c g : Nat) :
    (l.filterLimits c g).1.filterLimits c g = ((l.filterLimits c g).1, [], []) :=
  filterLimits_short _ c g (filterLimits_caps l c g).1 (filterLimits_caps l c g).2

/-- The claim C9: rotating the journal with the pool contents and then
loading the resulting file delivers exactly those transactions, in
batches, to the add callback. -/
theorem C9_journal_roundtrip (all : List (Nat × List Transaction)) :
    (loadBatches (rotateFile all)).flatten = (all.map Prod.snd).flatten := by
  unfold loadBatches
  rw [loadLoop_flatten, rotateFile_flatten]
  simp

/-- The claim C3: `Forward t` removes and returns exactly the stored
transactions with nonce below `t`, in ascending nonce order, and keeps the
rest untouched. -/
theorem C3_forward_exact (m : TxSortedMap) (t : Nat) (hwf : m.WF) :
    (m.forward t).2 = (m.items.filter (fun kv => decide (kv.2.nonce < t))).map Prod.snd
    ∧ (m.forward t).1.items = m.items.filter (fun kv => decide (t ≤ kv.2.nonce))
    ∧ List.Pairwise (· < ·) ((m.forward t).2.map Transaction.nonce) := by
  obtain ⟨hpair, hidx, hco⟩ := hwf
  have e1 : m.items.filter (fun kv => decide (kv.1 < t)) =
      m.items.filter (fun kv => decide (kv.2.nonce < t)) :=
    List.filter_congr (fun kv hm => by rw [hco kv hm])
  have e2 : m.items.filter (fun kv => decide (t ≤ kv.1)) =
      m.items.filter (fun kv => decide (t ≤ kv.2.nonce)) :=
    List.filter_congr (fun kv hm => by rw [hco kv hm])
  unfold TxSortedMap.forward
  rw [hidx, forwardLoop_spec t m.items [] hpair]
  refine ⟨by simp [e1], by simp [e2], ?_⟩
  have e3 : ((m.items.filter (fun kv => decide (kv.1 < t))).map Prod.snd).map
      Transaction.nonce = (m.items.filter (fun kv => decide (kv.1 < t))).map Prod.fst := by
    rw [List.map_map]
    exact List.map_congr_left (fun kv hkv =>
      hco kv (List.mem_of_mem_filter hkv))
  simp only [← e1, List.nil_append]
  rw [e3]
  exact (List.pairwise_map.mpr (hpair.sublist (List.filter_sublist _)))

theorem C3_forward_exact_witness :
    mapC3.WF
    ∧ ((mapC3.forward 3).2 =
        (mapC3.items.filter (fun kv => decide (kv.2.nonce < 3))).map Prod.snd
       ∧ (mapC3.forward 3).1.items =
          mapC3.items.filter (fun kv => decide (3 ≤ kv.2.nonce))
       ∧ List.Pairwise (· < ·) ((mapC3.forward 3).2.map Transaction.nonce)) :=
  ⟨by decide, C3_forward_exact mapC3 3 (by decide)⟩

/-- The claim C4: removing a present transaction from a strict list
returns true, returns as invalidated exactly the stored transactions with
nonce above the removed one, and leaves behind only transactions with
strictly smaller nonces. -/
theorem C4_strict_remove (l : TxList) (tx : Transaction)
    (hs : l.strict = true) (hwf : l.txs.WF)
    (hin : mapGet l.txs.items tx.nonce ≠ none) :
    (l.removeTx tx).2.1 = true
    ∧ (l.removeTx tx).2.2 =
        (l.txs.items.filter (fun kv => decide (tx.nonce < kv.2.nonce))).map Prod.snd
    ∧ ∀ kv ∈ (l.removeTx tx).1.txs.items, kv.2.nonce < tx.nonce := by
  obtain ⟨hpair, hidx, hco⟩ := hwf
  obtain ⟨old, hold⟩ : ∃ old, mapGet l.txs.items tx.nonce = some old := by
    rcases e : mapGet l.txs.items tx.nonce with _ | old
    · exact absurd e hin
    · exact ⟨old, rfl⟩
  have hrem : l.txs.remove tx.nonce =
      ({ items := mapErase l.txs.items tx.nonce,
         index := heapEraseNonce l.txs.index tx.nonce,
         cache := none }, true) := by
    simp only [TxSortedMap.remove, hold]
  unfold TxList.removeTx
  dsimp only
  rw [hrem]
  simp only [Bool.not_true, Bool.false_eq_true, if_false, hs, if_true]
  set m1 : TxSortedMap :=
    { items := mapErase l.txs.items tx.nonce,
      index := heapEraseNonce l.txs.index tx.nonce, cache := none } with hm1
  have hspec := filterTxs_spec m1 (fun t => decide (tx.nonce < t.nonce))
  have hm1items : m1.items =
      l.txs.items.filter (fun kv => !decide (kv.1 = tx.nonce)) := by
    rw [hm1]
    exact mapErase_eq_filter tx.nonce l.txs.items hpair
  refine ⟨trivial, ?_, ?_⟩
  · rw [hspec.1, hm1items, filter_filter_tx]
    refine congrArg (List.map Prod.snd) (List.filter_congr ?_)
    intro kv hkv
    rw [hco kv hkv]
    by_cases h1 : tx.nonce < kv.1
    · have h2 : (!decide (kv.1 = tx.nonce)) = true := by simp; omega
      simp [h1, h2]
    · simp [h1]
  · intro kv hkv
    rw [hspec.2, hm1items, filter_filter_tx] at hkv
    have hmem := List.mem_filter.mp hkv
    have hco' := hco kv hmem.1
    have hcond := hmem.2
    rw [hco'] at hcond ⊢
    simp at hcond
    omega

theorem C4_strict_remove_witness :
    (listC4.strict = true ∧ listC4.txs.WF ∧ mapGet listC4.txs.items txK2.nonce ≠ none)
    ∧ ((listC4.removeTx txK2).2.1 = true
       ∧ (listC4.removeTx txK2).2.2 =
          (listC4.txs.items.filter
            (fun kv => decide (txK2.nonce < kv.2.nonce))).map Prod.snd
       ∧ ∀ kv ∈ (listC4.removeTx txK2).1.txs.items, kv.2.nonce < txK2.nonce) :=
  ⟨⟨by decide, by decide, by decide⟩,
   C4_strict_remove listC4 txK2 (by decide) (by decide) (by decide)⟩

/-- The counterexample to C8: capping the map with nonces 1, 2, 3 to one
entry returns the dropped transactions with nonces [3, 2] — descending,
not ascending as the claim states. -/
theorem C8_cex :
    ((TxSortedMap.cap
        { items := [(1, txN1), (2, txN2), (3, txN3)], index := [1, 2, 3],
          cache := none } 1).2.map Transaction.nonce = [3, 2])
    ∧ ¬ List.Pairwise (· ≤ ·)
        ((TxSortedMap.cap
          { items := [(1, txN1), (2, txN2), (3, txN3)], index := [1, 2, 3],
            cache := none } 1).2.map Transaction.nonce) := by
  decide

/-- The claim C8 as amended: on a map holding more than `n` transactions,
`Cap n` removes the `|items| - n` highest-nonce transactions, returns them
in descending nonce order (the source deletes from the top of the sorted
index downwards), and leaves exactly the `n` lowest-nonce transactions. -/
theorem C8_amended_cap (m : TxSortedMap) (n : Nat) (hwf : m.WF)
    (h : n < m.items.length) :
    (m.cap n).2 = (m.items.drop n).reverse.map Prod.snd
    ∧ (m.cap n).1.items = m.items.take n
    ∧ List.Pairwise (· > ·) ((m.cap n).2.map Transaction.nonce) := by
  obtain ⟨hpair, hidx, hco⟩ := hwf
  have hle : List.Pairwise (· ≤ ·) (m.items.map Prod.fst) :=
    List.pairwise_map.mpr (hpair.imp Nat.le_of_lt)
  have hsorted : sortNonces m.index = m.index := by
    rw [hidx]; exact sortNonces_sorted_id _ hle
  have hsplit : m.items.take n ++ m.items.drop n = m.items :=
    List.take_append_drop n m.items
  have hdropmap : (m.items.map Prod.fst).drop n = (m.items.drop n).map Prod.fst := by
    rw [List.map_drop]
  have hloop := capLoop_spec (m.items.drop n) (m.items.take n) []
    (by rw [hsplit]; exact hpair)
  rw [hsplit] at hloop
  unfold TxSortedMap.cap
  rw [if_neg (by omega)]
  dsimp only
  rw [hsorted, hidx, hdropmap, hloop]
  refine ⟨by simp, by simp, ?_⟩
  have hmem : ∀ kv ∈ (m.items.drop n).reverse, kv.2.nonce = kv.1 := by
    intro kv hkv
    exact hco kv (List.mem_of_mem_drop (List.mem_reverse.mp hkv))
  have e3 : (((m.items.drop n).reverse.map Prod.snd).map Transaction.nonce) =
      (m.items.drop n).reverse.map Prod.fst := by
    rw [List.map_map]
    exact List.map_congr_left hmem
  simp only [List.nil_append]
  rw [e3]
  refine List.pairwise_map.mpr ?_
  rw [List.pairwise_reverse]
  exact (hpair.sublist (List.drop_sublist n m.items)).imp (fun hab => hab)

theorem C8_amended_cap_witness :
    (mapC8w.WF ∧ 2 < mapC8w.items.length)
    ∧ ((mapC8w.cap 2).2 = (mapC8w.items.drop 2).reverse.map Prod.snd
       ∧ (mapC8w.cap 2).1.items = mapC8w.items.take 2
       ∧ List.Pairwise (· > ·) ((mapC8w.cap 2).2.map Transaction.nonce)) :=
  ⟨⟨by decide, by decide⟩, C8_amended_cap mapC8w 2 (by decide) (by decide)⟩

/-- The counterexample to C5: a stale local transaction (present in the
heap but no longer in the global map) is popped by `Discard` and simply
dropped from the heap — it is not pushed back, contradicting the claim
that local transactions popped during the scan are pushed back onto the
heap. -/
theorem C5_cex :
    localSet55.containsTx txLocal5 = true
    ∧ txLocal5 ∈ pricedStaleLocal.items
    ∧ txLocal5 ∉ (pricedStaleLocal.discard 1 localSet55).1.items := by
  decide

/-- The claim C5 as amended: neither `Discard` nor `Cap` ever returns a
transaction of a local sender in its drop list, and every local
transaction that is still live in the global map (non-stale) survives in
the heap; stale local entries are silently dropped from the heap. -/
theorem C5_amended_locals_protected (l : TxPricedList) (n threshold : Nat)
    (locals : AccountSet) :
    (∀ tx ∈ (l.discard n locals).2, locals.containsTx tx = false)
    ∧ (∀ tx ∈ (l.capOp threshold locals).2, locals.containsTx tx = false)
    ∧ (∀ tx ∈ l.items, locals.containsTx tx = true → mapGet l.all tx.hash ≠ none →
        tx ∈ (l.discard n locals).1.items)
    ∧ (∀ tx ∈ l.items, locals.containsTx tx = true → mapGet l.all tx.hash ≠ none →
        tx ∈ (l.capOp threshold locals).1.items) := by
  refine ⟨?_, ?_, ?_, ?_⟩
  · intro tx htx
    exact discardScan_drop_not_locals l.all locals l.items n l.stales [] []
      (by intro t ht; exact absurd ht (List.not_mem_nil t)) tx htx
  · intro tx htx
    exact capScan_drop_not_locals l.all threshold locals l.items l.stales [] []
      (by intro t ht; exact absurd ht (List.not_mem_nil t)) tx htx
  · intro tx htx hl hs
    have := discardScan_keeps_locals l.all locals l.items n l.stales [] [] tx
      (Or.inl htx) hl hs
    unfold TxPricedList.discard
    dsimp only
    rw [foldl_pricePush_mem]
    tauto
  · intro tx htx hl hs
    have := capScan_keeps_locals l.all threshold locals l.items l.stales [] [] tx
      (Or.inl htx) hl hs
    unfold TxPricedList.capOp
    dsimp only
    rw [foldl_pricePush_mem]
    tauto

theorem C5_amended_locals_protected_witness :
    txRemote3 ∈ (pricedMixed.discard 2 localSet55).2
    ∧ localSet55.containsTx txRemote3 = false
    ∧ txLocal5 ∈ (pricedMixed.discard 2 localSet55).1.items :=
  ⟨by decide,
   (C5_amended_locals_protected pricedMixed 2 0 localSet55).1 txRemote3 (by decide),
   (C5_amended_locals_protected pricedMixed 2 0 localSet55).2.2.1 txLocal5
     (by decide) (by decide) (by decide)⟩
